import Mathlib

/-!
Verification of the PDF ingestion / retrieval core of the AI-PLC repository.

The embedding models, from `backend/src/services/bookProcessorNew.ts`:
page text extraction with its module-level cache (`extractSinglePage`,
`pageCache`), the cross-page lookahead (`peekAhead`), per-page chunking
(`processPage`), the worker page-range partition (`processBookInBackground`),
and the staging/commit state machine (`processPageRange`,
`commitToProduction`, the failure handler of `processBookInBackground`);
and from `backend/src/services/rag.ts` / `vectorSearch.ts`:
`searchSimilarDocuments`, `hasDocuments` and `processQuery`.

Strings are modeled as `List Char` (JavaScript strings over the ASCII-range
inputs that appear here; `substring`/`trim`/length behave identically).
External effects (pdftotext output, the embedding service, the pgvector
distance operator, the chat-completion service) are oracle parameters.
-/

set_option maxRecDepth 100000

namespace AIPLC


/-- JavaScript string, modeled as a list of characters. -/
abbrev Text := List Char


/-- Whitespace recognized by `String.prototype.trim` (the common ASCII part;
the texts in this development contain no exotic Unicode whitespace). -/
def isWS (c : Char) : Bool :=
  c = ' ' || c = '\n' || c = '\t' || c = '\r'


/-- `s.trim()`: drop leading and trailing whitespace. -/
def trim (t : Text) : Text :=
  ((t.dropWhile isWS).reverse.dropWhile isWS).reverse


/-- `s.substring(b, e)` for `b ≤ e` (the only way it is called here). -/
def substr (t : Text) (b e : Nat) : Text :=
  (t.drop b).take (e - b)


/-- The two-newline separator `'\n\n'` inserted by `peekAhead` and between a
chunk and its lookahead tail in `processPage`. -/
def sep : Text := ['\n', '\n']


/-- `CHUNK_SIZE` (bookProcessorNew.ts line 124). -/
def CHUNK_SIZE : Nat := 1000


/-- `OVERLAP` (bookProcessorNew.ts line 125). -/
def OVERLAP : Nat := 200


/-- `LOOKAHEAD_TARGET` (bookProcessorNew.ts line 126). -/
def LOOKAHEAD_TARGET : Nat := 2000


/-! ## Page extraction and the module-level page cache

`extractSinglePage(pdfPath, pageNum)` runs pdftotext, trims the result and
memoizes it in the module-level `pageCache : Map<string, string>` keyed by
`` `${pdfPath}:${pageNum}` `` (modeled as the pair `(pdfPath, pageNum)`; the
paths used contain no `':'`, so the pair is equivalent to the joined key).
`oracle n` is the raw text pdftotext produces for page `n` of the document. -/

/-- The `pageCache` contents: association list from `(pdfPath, pageNumber)`
to the trimmed extracted text. -/
abbrev PageCache := List ((String × Nat) × Text)


/-- `pageCache.has(key)` / `pageCache.get(key)`: first matching entry. -/
def cacheGet (cache : PageCache) (k : String × Nat) : Option Text :=
  match cache with
  | [] => none
  | (k', t) :: rest => if k = k' then some t else cacheGet rest k


/-- `extractSinglePage` (bookProcessorNew.ts lines 27-55): return the cached
text if present, otherwise trim the extractor output, cache it, return it. -/
def extractSinglePage (oracle : Nat → Text) (pdfPath : String)
    (cache : PageCache) (pageNum : Nat) : Text × PageCache :=
  match cacheGet cache (pdfPath, pageNum) with
  | some t => (t, cache)
  | none =>
      let t := trim (oracle pageNum)
      (t, ((pdfPath, pageNum), t) :: cache)


/-- The cache holds only values that the extractor would produce. -/
def CacheOK (oracle : Nat → Text) (pdfPath : String) (cache : PageCache) : Prop :=
  ∀ n t, cacheGet cache (pdfPath, n) = some t → t = trim (oracle n)


/-- The page text a consistent `extractSinglePage` yields for page `n`:
the trimmed extractor output.  `peekAhead` and `processPage` below are
stated over this function. -/
def pageTextOf (oracle : Nat → Text) (n : Nat) : Text :=
  trim (oracle n)


/-! ## Lookahead (`peekAhead`, bookProcessorNew.ts lines 74-108)

The while-loop is written with an explicit iteration budget (`fuel`).
With `fuel = totalPages + 1 - currentPage` the budget runs out exactly when
`currentPage > totalPages`, i.e. exactly when the loop condition fails, so
the fuel-indexed function is the loop, not an approximation of it.
`pages` stands for `extractSinglePage`'s (trimmed) result, see
`extractSinglePage_fst`. -/

def peekAheadGo (pages : Nat → Text) (totalPages targetChars : Nat) :
    Nat → Nat → Text → Text
  | 0, _, acc => acc
  | fuel + 1, currentPage, acc =>
    if acc.length < targetChars ∧ currentPage ≤ totalPages then
      let pageText := pages currentPage
      if pageText = [] then
        peekAheadGo pages totalPages targetChars fuel (currentPage + 1) acc
      else
        let neededChars := targetChars - acc.length
        let contribution := pageText.take neededChars
        let acc2 := acc ++ (if 0 < acc.length then sep else []) ++ contribution
        if targetChars ≤ acc2.length then acc2
        else if pageText.length ≤ neededChars then
          peekAheadGo pages totalPages targetChars fuel (currentPage + 1) acc2
        else acc2
    else acc


/-- `peekAhead(pdfPath, startPage, totalPages, targetChars)`. -/
def peekAhead (pages : Nat → Text) (startPage totalPages targetChars : Nat) : Text :=
  peekAheadGo pages totalPages targetChars (totalPages + 1 - startPage) startPage []


/-! ## Per-page chunking (`processPage`, bookProcessorNew.ts lines 113-164)

The loop advances `startIndex` by `CHUNK_SIZE - OVERLAP = 800` while
`startIndex < pageText.length`; `fuel = pageText.length` iterations always
suffice (lemmas carry the bound `pageText.length ≤ startIndex + 800 * fuel`,
under which running out of fuel coincides with the loop condition failing). -/

structure TextChunk where
  text : Text
  pageNumber : Nat
  chunkIndex : Nat
  textLength : Nat
deriving DecidableEq


def processPageGo (pages : Nat → Text) (pageText : Text) (pageNum totalPages : Nat) :
    Nat → Nat → Nat → List TextChunk
  | 0, _, _ => []
  | fuel + 1, startIndex, chunkIndex =>
    if startIndex < pageText.length then
      let endIndex := min (startIndex + CHUNK_SIZE) pageText.length
      let baseChunk := substr pageText startIndex endIndex
      let chunkText :=
        if pageText.length ≤ startIndex + CHUNK_SIZE ∧ pageNum < totalPages then
          let lookaheadText := peekAhead pages (pageNum + 1) totalPages LOOKAHEAD_TARGET
          if lookaheadText ≠ [] then baseChunk ++ sep ++ lookaheadText else baseChunk
        else baseChunk
      if 50 < (trim chunkText).length then
        ⟨trim chunkText, pageNum, chunkIndex, (trim chunkText).length⟩ ::
          processPageGo pages pageText pageNum totalPages fuel
            (startIndex + (CHUNK_SIZE - OVERLAP)) (chunkIndex + 1)
      else
        processPageGo pages pageText pageNum totalPages fuel
          (startIndex + (CHUNK_SIZE - OVERLAP)) chunkIndex
    else []


/-- `processPage(pdfPath, pageNum, totalPages)`. -/
def processPage (pages : Nat → Text) (pageNum totalPages : Nat) : List TextChunk :=
  let pageText := pages pageNum
  if pageText = [] then []
  else processPageGo pages pageText pageNum totalPages pageText.length 0 0


/-! ### The windows the loop ranges over (specification device)

`windowStarts len` enumerates the values `startIndex` takes while
`startIndex < len` (namely `0, 800, 1600, …`); `windowText` is the window
text the loop builds at a given start, lookahead extension included.
`processPage_text_spec` below proves that `processPage` emits exactly the
windows whose trimmed text is longer than 50 characters. -/

def windowStartsGo (len : Nat) : Nat → Nat → List Nat
  | 0, _ => []
  | fuel + 1, s =>
    if s < len then s :: windowStartsGo len fuel (s + (CHUNK_SIZE - OVERLAP)) else []


def windowStarts (len : Nat) : List Nat :=
  windowStartsGo len len 0


def windowBase (pageText : Text) (s : Nat) : Text :=
  substr pageText s (min (s + CHUNK_SIZE) pageText.length)


def windowText (pages : Nat → Text) (pageText : Text) (pageNum totalPages : Nat)
    (s : Nat) : Text :=
  let baseChunk := windowBase pageText s
  if pageText.length ≤ s + CHUNK_SIZE ∧ pageNum < totalPages then
    let lookaheadText := peekAhead pages (pageNum + 1) totalPages LOOKAHEAD_TARGET
    if lookaheadText ≠ [] then baseChunk ++ sep ++ lookaheadText else baseChunk
  else baseChunk


def windowTexts (pages : Nat → Text) (pageNum totalPages : Nat) : List Text :=
  (windowStarts (pages pageNum).length).map
    (windowText pages (pages pageNum) pageNum totalPages)


/-! ### Lookahead boundary continuity

`peekAhead` joins per-page contributions with `'\n\n'`, truncating each page
against the budget that remains *before* its separator is added.  The result
is a prefix of the `'\n\n'`-separated join of the following non-empty pages
(`peekAhead_prefix_sepJoin`), and its length can exceed the target by up to
the final separator's two characters (`peekAhead_length_le`). -/

/-- The page texts `pages s, pages (s+1), …` (`count` of them). -/
def pagesFrom (pages : Nat → Text) : Nat → Nat → List Text
  | _, 0 => []
  | s, count + 1 => pages s :: pagesFrom pages (s + 1) count


/-- The texts of pages `startPage … totalPages`, empty pages skipped —
exactly the pages `peekAhead` draws lookahead text from. -/
def followingPages (pages : Nat → Text) (startPage totalPages : Nat) : List Text :=
  (pagesFrom pages startPage (totalPages + 1 - startPage)).filter (fun t => !t.isEmpty)


/-- Join texts with the two-newline separator (no trailing separator). -/
def sepJoin : List Text → Text
  | [] => []
  | [t] => t
  | t :: t' :: ts => t ++ sep ++ sepJoin (t' :: ts)


/-! ## Worker page-range partition
(`processBookInBackground`, bookProcessorNew.ts lines 269-302)

`pagesPerWorker = Math.ceil(totalPages / WORKERS)`; for the page counts that
occur (far below 2^52) floating-point division cannot round `n / 3` past an
integer, so the `Nat` ceiling is exact. -/

def WORKERS : Nat := 3


def pagesPerWorker (totalPages : Nat) : Nat := (totalPages + WORKERS - 1) / WORKERS


/-- `processStart = i * pagesPerWorker + 1` (line 277). -/
def processStart (i totalPages : Nat) : Nat := i * pagesPerWorker totalPages + 1


/-- `processEnd = Math.min((i + 1) * pagesPerWorker, totalPages)` (line 278). -/
def processEnd (i totalPages : Nat) : Nat :=
  min ((i + 1) * pagesPerWorker totalPages) totalPages


/-- Page `q` belongs to worker `i`'s range (the pages iterated by
`processPageRange(…, processStart, processEnd, …)`; empty when
`processStart > processEnd`). -/
def inWorkerRange (i totalPages q : Nat) : Prop :=
  processStart i totalPages ≤ q ∧ q ≤ processEnd i totalPages


instance (i totalPages q : Nat) : Decidable (inWorkerRange i totalPages q) := by
  unfold inWorkerRange
  infer_instance


/-! ## The staging / commit state machine

State of the storage that `processBookInBackground` (bookProcessorNew.ts
lines 258-352) and `commitToProduction` (lines 416-477) mutate for one book
and its single ingestion job: the committed `document_chunks` table, the
`document_chunks_staging` table, the book row's `processing_status`, and the
job row's `status` / `completed_chunks` counter, plus the module-level
`pageCache` and the temporary PDF file.

Each transition is one of the program's database transactions (or the cache
write inside `extractSinglePage`), so a query between any two events sees
exactly one of these states — Postgres transactional isolation hides every
in-transaction intermediate.  `Ev.commitTxn false` is `commitToProduction`'s
transaction failing partway and rolling back: no observable change.  A run
of the job is an event trace of one of the three shapes of `JobRun`:
success (`Promise.all` resolved, i.e. three `workerDone` increments, then
the commit transaction), commit failure (the same, then the rolled-back
transaction followed by the catch handler of `processBookInBackground`), or
worker failure (the catch handler fires while other workers may still be
running and staging — the trailing `evs₂`). -/

/-- One row of `document_chunks` (also the payload of a staging row). -/
structure ChunkRow where
  id : String
  book_id : String
  topic_id : String
  text : Text
  embedding : List Rat
  page_number : Nat
  book_title : Text
  chunk_index : Nat
deriving DecidableEq


/-- Observable storage state between the program's transactions. -/
structure SysState where
  committed : List ChunkRow
  staging : List (String × ChunkRow)
  bookStatus : String
  jobStatus : String
  jobError : Option String
  completedChunks : Nat
  pdfFile : Bool
  cache : PageCache
deriving DecidableEq


/-- The program's atomic effects on the storage state. -/
inductive Ev where
  | extractPage (pdfPath : String) (page : Nat)
  | stageBatch (rows : List ChunkRow)
  | workerDone
  | commitTxn (ok : Bool)
  | failHandler (msg : String)
deriving DecidableEq


/-- Apply one effect.
* `extractPage`: the `pageCache` write inside `extractSinglePage`.
* `stageBatch`: one `BEGIN … INSERT INTO document_chunks_staging … COMMIT`
  batch transaction of `processPageRange` (lines 212-236).
* `workerDone`: the `completed_chunks = completed_chunks + 1` update
  (lines 291-297).
* `commitTxn true`: `commitToProduction`'s transaction (lines 424-461):
  copy the job's staging rows into `document_chunks`, delete them, mark book
  and job `complete`; then the PDF file is removed.
* `commitTxn false`: the same transaction failing partway: `ROLLBACK`, no
  observable change (line 471).
* `failHandler`: the catch block of `processBookInBackground`
  (lines 313-348): mark book and job `failed` with the error text, delete
  the job's staging rows, remove the PDF file. -/
def step (oracle : Nat → Text) (jobId : String) (st : SysState) : Ev → SysState
  | .extractPage pdfPath page =>
      { st with cache := (extractSinglePage oracle pdfPath st.cache page).2 }
  | .stageBatch rows =>
      { st with staging := st.staging ++ rows.map (fun r => (jobId, r)) }
  | .workerDone =>
      { st with completedChunks := st.completedChunks + 1 }
  | .commitTxn true =>
      { st with
        committed := st.committed
          ++ (st.staging.filter (fun s => s.1 = jobId)).map Prod.snd,
        staging := st.staging.filter (fun s => ¬ s.1 = jobId),
        bookStatus := "complete",
        jobStatus := "complete",
        pdfFile := false }
  | .commitTxn false => st
  | .failHandler msg =>
      { st with
        bookStatus := "failed",
        jobStatus := "failed",
        jobError := some msg,
        staging := st.staging.filter (fun s => ¬ s.1 = jobId),
        pdfFile := false }


/-- Run a trace of effects. -/
def runTrace (oracle : Nat → Text) (jobId : String) (init : SysState)
    (evs : List Ev) : SysState :=
  evs.foldl (step oracle jobId) init


/-- All chunk rows the trace inserts into staging — "the job's chunks". -/
def stagedRows : List Ev → List ChunkRow
  | [] => []
  | .stageBatch rows :: es => rows ++ stagedRows es
  | _ :: es => stagedRows es


/-- Effects a worker task can produce (extraction, staging batches, its
completion increment) — everything that can happen before the join barrier. -/
def isWorkerEv : Ev → Bool
  | .extractPage _ _ => true
  | .stageBatch _ => true
  | .workerDone => true
  | _ => false


/-- Count of `workerDone` increments in a trace. -/
def countDone (evs : List Ev) : Nat :=
  evs.countP (fun e => e = Ev.workerDone)


/-- The traces `processBookInBackground` can produce for one job.
`Promise.all` resolves only after all `WORKERS = 3` workers have run their
completion update, and the commit transaction is issued right after that
join; on any failure the single catch handler runs, while (only in the
worker-failure case) the surviving workers may still append to staging. -/
inductive JobRun : List Ev → Prop where
  | success (evs : List Ev)
      (hw : evs.all isWorkerEv = true) (hc : countDone evs = WORKERS) :
      JobRun (evs ++ [Ev.commitTxn true])
  | commitFail (evs : List Ev) (msg : String)
      (hw : evs.all isWorkerEv = true) (hc : countDone evs = WORKERS) :
      JobRun (evs ++ [Ev.commitTxn false, Ev.failHandler msg])
  | workerFail (evs₁ evs₂ : List Ev) (msg : String)
      (hw : (evs₁ ++ evs₂).all isWorkerEv = true) :
      JobRun (evs₁ ++ Ev.failHandler msg :: evs₂)


/-- Does an event write the committed store? Only a successful commit
transaction does. -/
def writesCommitted : Ev → Bool
  | .commitTxn true => true
  | _ => false


/-! ## Retrieval and answer composition
(`rag.ts` lines 25-120, `vectorSearch.ts` lines 38-96, 138-146)

The citation dedup key is the template string `` `${title}-${page}` ``;
`natDigits` renders the page number the way JavaScript stringifies a
non-negative integer (decimal digits).  Digits contain no `'-'`, which makes
the key injective on (title, page) pairs. -/

def digitChar (n : Nat) : Char := Char.ofNat (48 + n)


def natDigitsGo : Nat → Nat → Text
  | 0, _ => []
  | fuel + 1, n =>
    if n < 10 then [digitChar n]
    else natDigitsGo fuel (n / 10) ++ [digitChar (n % 10)]


/-- Decimal rendering of a natural number (`String(n)` in JavaScript). -/
def natDigits (n : Nat) : Text := natDigitsGo (n + 1) n


/-- Decimal value of a digit string (left fold, most significant first). -/
def valOf (t : Text) : Nat :=
  t.foldl (fun a c => 10 * a + (c.toNat - 48)) 0


/-- The dedup key `` `${book_title}-${page_number}` ``
(rag.ts line 67). -/
def citationKey (title : Text) (page : Nat) : Text :=
  title ++ '-' :: natDigits page


/-- One row returned by `searchSimilarDocuments` (metadata flattened). -/
structure SearchResult where
  id : String
  text : Text
  book_title : Text
  page_number : Nat
  book_id : String
  topic_id : String
  distance : Rat
deriving DecidableEq


structure Citation where
  book_title : Text
  page_number : Nat
deriving DecidableEq


structure RAGResponse where
  answer : Text
  citations : List Citation
  hasRelevantDocs : Bool
deriving DecidableEq


/-- The external services `processQuery` consumes: the committed
`document_chunks` table, the pgvector distance
`embedding <=> embed(query)` (a real number; modeled in `ℚ`), and the chat
completion (returning `none` models a null `message.content`). -/
structure RagEnv where
  corpus : List ChunkRow
  dist : Text → List Rat → Rat
  complete : Text → Option Text


/-- `SIMILARITY_THRESHOLD` (rag.ts line 8, default `'0.5'`). -/
def SIMILARITY_THRESHOLD : Rat := 1 / 2


def toSearchResult (env : RagEnv) (query : Text) (r : ChunkRow) : SearchResult :=
  ⟨r.id, r.text, r.book_title, r.page_number, r.book_id, r.topic_id,
    env.dist query r.embedding⟩


/-- Stable insertion into a distance-ascending list (models the SQL
`ORDER BY embedding <=> $1::vector`; tie order in SQL is unspecified). -/
def insertByDistance (x : SearchResult) : List SearchResult → List SearchResult
  | [] => [x]
  | y :: ys =>
    if x.distance ≤ y.distance then x :: y :: ys else y :: insertByDistance x ys


def sortByDistance (l : List SearchResult) : List SearchResult :=
  l.foldr insertByDistance []


/-- `searchSimilarDocuments(query, topicId, topK)` (vectorSearch.ts lines
38-96): optional `WHERE topic_id = $2`, order by distance, `LIMIT topK`. -/
def searchSimilarDocuments (env : RagEnv) (query : Text)
    (topicId : Option String) (topK : Nat) : List SearchResult :=
  let base : List ChunkRow := match topicId with
    | some t => env.corpus.filter (fun r => r.topic_id = t)
    | none => env.corpus
  (sortByDistance (base.map (toSearchResult env query))).take topK


/-- `hasDocuments()` (vectorSearch.ts lines 138-146): `COUNT(*) > 0`. -/
def hasDocuments (env : RagEnv) : Bool := 0 < env.corpus.length


/-- rag.ts line 35: the empty-knowledge-base refusal text. -/
def NO_DOCS_REFUSAL : Text :=
  "I apologize, but I don\x27t have any documents in my knowledge base yet. I can only answer questions based on the PLC course materials that have been uploaded to my system. Please check back once documents have been added.".data


/-- rag.ts line 51: the no-relevant-passages refusal text. -/
def NO_RELEVANT_REFUSAL : Text :=
  "I apologize, but I couldn\x27t find any relevant information in my knowledge base to answer your question. I can only provide answers based on the PLC course materials that have been uploaded. Please try rephrasing your question or ask about a different topic covered in the materials.".data


/-- rag.ts line 108: fallback when the completion content is null. -/
def GENERATION_ERROR_ANSWER : Text :=
  "I apologize, but I encountered an error generating a response.".data


/-- rag.ts lines 78-89: the fixed system-prompt header (the context block is
appended after it). -/
def SYSTEM_PROMPT_HEADER : Text :=
  "You are an AI assistant for a PLC (Programmable Logic Controller) educational platform.\n\nCRITICAL INSTRUCTIONS:\n1. You MUST ONLY answer questions using the information provided in the context below\n2. DO NOT use any general knowledge or information from your training data\n3. If the context doesn\x27t contain enough information to answer the question, you MUST say so\n4. Always cite specific sources when providing information\n5. Be concise and educational in your responses\n6. If the user\x27s question cannot be answered from the provided context, politely explain that you don\x27t have that information in the course materials\n\nContext from PLC course materials:\n".data


/-- Join with an arbitrary separator (`Array.prototype.join`). -/
def joinWith (s : Text) : List Text → Text
  | [] => []
  | [t] => t
  | t :: t' :: ts => t ++ s ++ joinWith s (t' :: ts)


/-- rag.ts lines 58-62: one `[Source i: title, Page p]\ntext` block. -/
def sourceBlock (idx : Nat) (d : SearchResult) : Text :=
  "[Source ".data ++ natDigits (idx + 1) ++ ": ".data ++ d.book_title
    ++ ", Page ".data ++ natDigits d.page_number ++ "]\n".data ++ d.text


def contextOf (docs : List SearchResult) : Text :=
  joinWith "\n\n---\n\n".data (docs.enum.map (fun p => sourceBlock p.1 p.2))


/-- The citation pair a retrieved chunk contributes. -/
def pairOf (d : SearchResult) : Citation := ⟨d.book_title, d.page_number⟩


/-- rag.ts lines 65-75: the `citationsMap` loop — first-come-wins dedup on
the string key `` `${title}-${page}` ``, insertion order preserved. -/
def buildCitations : List SearchResult → List (Text × Citation) → List (Text × Citation)
  | [], acc => acc
  | d :: ds, acc =>
      let key := citationKey d.book_title d.page_number
      if key ∈ acc.map Prod.fst then buildCitations ds acc
      else buildCitations ds (acc ++ [(key, pairOf d)])


/-- `processQuery(query, topicId)` (rag.ts lines 25-120).  The second
component lists the prompts of the chat-completion requests issued. -/
def processQuery (env : RagEnv) (query : Text) (topicId : Option String) :
    RAGResponse × List Text :=
  if ¬ hasDocuments env = true then
    (⟨NO_DOCS_REFUSAL, [], false⟩, [])
  else
    let searchResults := searchSimilarDocuments env query topicId 5
    let relevantDocs := searchResults.filter
      (fun (r : SearchResult) => r.distance ≤ SIMILARITY_THRESHOLD)
    if relevantDocs.length = 0 then
      (⟨NO_RELEVANT_REFUSAL, [], false⟩, [])
    else
      let context := contextOf relevantDocs
      let citations := (buildCitations relevantDocs []).map Prod.snd
      let systemPrompt := SYSTEM_PROMPT_HEADER ++ context
      let answer := (env.complete systemPrompt).getD GENERATION_ERROR_ANSWER
      (⟨answer, citations, true⟩, [systemPrompt])


/-! ## Concrete fixtures used by the claim-level theorems -/

/-- A 900-character page followed by a short page: the lookahead zone
`startIndex + CHUNK_SIZE ≥ 900` contains the two starts 0 and 800. -/
def pages900 : Nat → Text
  | 1 => List.replicate 900 'a'
  | 2 => List.replicate 10 'b'
  | _ => []

/-- A single page of exactly 50 non-whitespace characters. -/
def pages50 : Nat → Text
  | 1 => List.replicate 50 'a'
  | _ => []

/-- Boundary-continuity fixture: page 2 leaves a 1-character lookahead
budget, so page 3's contribution is cut after the separator is added. -/
def pagesBC : Nat → Text
  | 1 => List.replicate 100 'a'
  | 2 => List.replicate 1999 'b'
  | 3 => List.replicate 10 'c'
  | _ => []

/-- The lookahead text `peekAhead` produces from page 2 of `pagesBC`. -/
def laBC : Text := List.replicate 1999 'b' ++ sep ++ ['c']

/-- One staged chunk row. -/
def rowX : ChunkRow :=
  ⟨"c1", "b1", "t1", "Alpha Beta Gamma".data, [], 1, "Test Book".data, 0⟩

/-- Storage state right after `uploadAndProcessBook`'s initial transaction:
book and job `processing`, zero completed workers, empty staging. -/
def initX : SysState := ⟨[], [], "processing", "processing", none, 0, true, []⟩

def oracleX : Nat → Text := fun _ => []

def pdfPathX : String := "/tmp/processing/b1.pdf"

def oracleC10 : Nat → Text
  | 1 => "Alpha".data
  | _ => []

/-- A successful one-batch run: stage, three worker completions, commit. -/
def traceSuccess : List Ev :=
  [Ev.stageBatch [rowX], Ev.workerDone, Ev.workerDone, Ev.workerDone, Ev.commitTxn true]

/-- The same run with the commit transaction failing partway. -/
def traceCommitFail : List Ev :=
  [Ev.stageBatch [rowX], Ev.workerDone, Ev.workerDone, Ev.workerDone,
    Ev.commitTxn false, Ev.failHandler "commit failed"]

/-- A successful run whose worker extracted a page (filling the cache). -/
def traceC10 : List Ev :=
  [Ev.extractPage pdfPathX 1, Ev.stageBatch [rowX], Ev.workerDone, Ev.workerDone,
    Ev.workerDone, Ev.commitTxn true]

/-- An empty-corpus retrieval environment. -/
def envEmpty : RagEnv := ⟨[], fun _ _ => 0, fun _ => none⟩


theorem extractSinglePage_fst (oracle : Nat → Text) (pdfPath : String)
    (cache : PageCache) (n : Nat) (h : CacheOK oracle pdfPath cache) :
    (extractSinglePage oracle pdfPath cache n).1 = pageTextOf oracle n := by
  unfold extractSinglePage
  cases hc : cacheGet cache (pdfPath, n) with
  | none => rfl
  | some t => exact h n t hc


theorem extractSinglePage_cacheOK (oracle : Nat → Text) (pdfPath : String)
    (cache : PageCache) (n : Nat) (h : CacheOK oracle pdfPath cache) :
    CacheOK oracle pdfPath (extractSinglePage oracle pdfPath cache n).2 := by
  unfold extractSinglePage
  cases hc : cacheGet cache (pdfPath, n) with
  | none =>
      intro m t hm
      simp only [cacheGet] at hm
      by_cases he : (pdfPath, m) = (pdfPath, n)
      · rw [if_pos he] at hm
        cases hm
        cases he
        rfl
      · rw [if_neg he] at hm
        exact h m t hm
  | some t => exact h


/-! ### Unfolding and whitespace helper lemmas -/

theorem peekAheadGo_succ (pages : Nat → Text) (totalPages targetChars fuel currentPage : Nat)
    (acc : Text) :
    peekAheadGo pages totalPages targetChars (fuel + 1) currentPage acc =
      if acc.length < targetChars ∧ currentPage ≤ totalPages then
        let pageText := pages currentPage
        if pageText = [] then
          peekAheadGo pages totalPages targetChars fuel (currentPage + 1) acc
        else
          let neededChars := targetChars - acc.length
          let contribution := pageText.take neededChars
          let acc2 := acc ++ (if 0 < acc.length then sep else []) ++ contribution
          if targetChars ≤ acc2.length then acc2
          else if pageText.length ≤ neededChars then
            peekAheadGo pages totalPages targetChars fuel (currentPage + 1) acc2
          else acc2
      else acc := rfl


theorem windowStartsGo_stop (len fuel s : Nat) (h : ¬ s < len) :
    windowStartsGo len fuel s = [] := by
  cases fuel with
  | zero => rfl
  | succ fuel => rw [windowStartsGo, if_neg h]


theorem trim_eq_self (l : Text)
    (h1 : ∀ c, l.head? = some c → isWS c = false)
    (h2 : ∀ c, l.getLast? = some c → isWS c = false) :
    trim l = l := by
  have hfront : l.dropWhile isWS = l := by
    cases l with
    | nil => rfl
    | cons a t =>
        rw [List.dropWhile_cons, h1 a rfl]
        simp
  have hback : l.reverse.dropWhile isWS = l.reverse := by
    cases hr : l.reverse with
    | nil => rfl
    | cons b t =>
        have hb : l.getLast? = some b := by
          rw [← List.head?_reverse, hr]
          rfl
        rw [List.dropWhile_cons, h2 b hb]
        simp
  unfold trim
  rw [hfront, hback, List.reverse_reverse]


theorem processPageGo_text_spec (pages : Nat → Text) (pageText : Text)
    (pageNum totalPages : Nat) :
    ∀ fuel s i, pageText.length ≤ s + (CHUNK_SIZE - OVERLAP) * fuel →
    (processPageGo pages pageText pageNum totalPages fuel s i).map TextChunk.text
      = ((windowStartsGo pageText.length fuel s).map
          (fun st => trim (windowText pages pageText pageNum totalPages st))).filter
          (fun t => 50 < t.length) := by
  intro fuel
  induction fuel with
  | zero =>
      intro s i hs
      simp [processPageGo, windowStartsGo]
  | succ fuel ih =>
      intro s i hs
      by_cases h : s < pageText.length
      · rw [processPageGo, windowStartsGo, if_pos h, if_pos h]
        have hrec : pageText.length ≤ s + (CHUNK_SIZE - OVERLAP)
            + (CHUNK_SIZE - OVERLAP) * fuel := by
          have : (CHUNK_SIZE - OVERLAP) * (fuel + 1)
              = (CHUNK_SIZE - OVERLAP) + (CHUNK_SIZE - OVERLAP) * fuel := by ring
          omega
        by_cases hkeep : 50 < (trim (windowText pages pageText pageNum totalPages s)).length
        · rw [if_pos (by exact hkeep)]
          simp only [List.map_cons, List.filter_cons, hkeep, decide_eq_true_eq,
            if_pos hkeep]
          rw [ih (s + (CHUNK_SIZE - OVERLAP)) (i + 1) (by omega)]
          simp [windowText, windowBase]
        · rw [if_neg (by exact hkeep)]
          simp only [List.map_cons, List.filter_cons]
          rw [ih (s + (CHUNK_SIZE - OVERLAP)) i (by omega)]
          simp only [windowText, windowBase]
          rw [if_neg (by simpa [windowText, windowBase] using hkeep)]
      · rw [processPageGo, windowStartsGo, if_neg h, if_neg h]
        simp


/-- `processPage` emits, in order, exactly the trimmed window texts longer
than 50 characters. -/
theorem processPage_text_spec (pages : Nat → Text) (pageNum totalPages : Nat) :
    (processPage pages pageNum totalPages).map TextChunk.text
      = ((windowTexts pages pageNum totalPages).map trim).filter
          (fun t => 50 < t.length) := by
  unfold processPage windowTexts windowStarts
  by_cases h : pages pageNum = []
  · simp [h, windowStartsGo]
  · rw [if_neg h]
    rw [processPageGo_text_spec pages (pages pageNum) pageNum totalPages
      (pages pageNum).length 0 0 (by simp [CHUNK_SIZE, OVERLAP]; omega)]
    simp [List.map_map]
    rfl


theorem preAppend {α : Type} (l t : List α) : l <+: l ++ t := ⟨t, rfl⟩


theorem preTake {α : Type} (l : List α) (n : Nat) : l.take n <+: l :=
  ⟨l.drop n, List.take_append_drop n l⟩


theorem preTrans {α : Type} {a b c : List α} (h1 : a <+: b) (h2 : b <+: c) : a <+: c := by
  obtain ⟨x, hx⟩ := h1
  obtain ⟨y, hy⟩ := h2
  exact ⟨x ++ y, by rw [← hy, ← hx, List.append_assoc]⟩


theorem preAppendRight {α : Type} {x y : List α} (a : List α) (h : x <+: y) :
    a ++ x <+: a ++ y := by
  obtain ⟨t, ht⟩ := h
  exact ⟨t, by rw [← ht, List.append_assoc]⟩


theorem preNilLeft {α : Type} (l : List α) : [] <+: l := ⟨l, rfl⟩


theorem preNilRight {α : Type} {l : List α} (h : l <+: ([] : List α)) : l = [] := by
  obtain ⟨t, ht⟩ := h
  exact (List.append_eq_nil.mp ht).1


theorem preLength {α : Type} {a b : List α} (h : a <+: b) : a.length ≤ b.length := by
  obtain ⟨t, ht⟩ := h
  rw [← ht, List.length_append]
  omega


theorem preAppendCases {α : Type} (l₂ : List α) :
    ∀ (l tr : List α), tr <+: l ++ l₂ → tr <+: l ∨ ∃ t₂, t₂ <+: l₂ ∧ tr = l ++ t₂ := by
  intro l
  induction l with
  | nil =>
      intro tr h
      exact Or.inr ⟨tr, h, rfl⟩
  | cons a l ih =>
      intro tr h
      cases tr with
      | nil => exact Or.inl (preNilLeft _)
      | cons b tr' =>
          obtain ⟨t, ht⟩ := h
          rw [List.cons_append] at ht
          injection ht with hb htail
          subst hb
          rcases ih tr' ⟨t, htail⟩ with h' | ⟨t₂, ht₂, rfl⟩
          · exact Or.inl (by
              obtain ⟨u, hu⟩ := h'
              exact ⟨u, by rw [List.cons_append, hu]⟩)
          · exact Or.inr ⟨t₂, ht₂, rfl⟩


theorem preSingleton {α : Type} {x : α} {tr : List α} (h : tr <+: [x]) :
    tr = [] ∨ tr = [x] := by
  obtain ⟨t, ht⟩ := h
  cases tr with
  | nil => exact Or.inl rfl
  | cons b tr' =>
      rw [List.cons_append] at ht
      injection ht with hb htail
      subst hb
      right
      rcases List.append_eq_nil.mp htail.symm.symm with _
      have := List.append_eq_nil.mp (htail)
      rw [this.1]


theorem preCons {α : Type} {x : α} {l tr : List α} (h : tr <+: x :: l) :
    tr = [] ∨ ∃ tr', tr' <+: l ∧ tr = x :: tr' := by
  obtain ⟨t, ht⟩ := h
  cases tr with
  | nil => exact Or.inl rfl
  | cons b tr' =>
      rw [List.cons_append] at ht
      injection ht with hb htail
      subst hb
      exact Or.inr ⟨tr', ⟨t, htail⟩, rfl⟩


theorem followingPages_of_gt (pages : Nat → Text) (startPage totalPages : Nat)
    (h : totalPages < startPage) :
    followingPages pages startPage totalPages = [] := by
  unfold followingPages
  rw [show totalPages + 1 - startPage = 0 by omega]
  rfl


theorem followingPages_of_le (pages : Nat → Text) (startPage totalPages : Nat)
    (h : startPage ≤ totalPages) :
    followingPages pages startPage totalPages =
      (if pages startPage = [] then [] else [pages startPage])
        ++ followingPages pages (startPage + 1) totalPages := by
  unfold followingPages
  rw [show totalPages + 1 - startPage = (totalPages + 1 - (startPage + 1)) + 1 by omega]
  rw [pagesFrom, List.filter_cons]
  by_cases hp : pages startPage = []
  · simp [hp, List.isEmpty_iff]
  · simp [hp, List.isEmpty_iff]


/-- A text is a prefix of the separator-join of any list it heads. -/
theorem pre_sepJoin_head (t : Text) (rest : List Text) : t <+: sepJoin (t :: rest) := by
  cases rest with
  | nil => exact ⟨[], List.append_nil t⟩
  | cons f fs =>
      rw [sepJoin]
      exact ⟨sep ++ sepJoin (f :: fs), (List.append_assoc t sep _).symm⟩


theorem peekAheadGo_structure (pages : Nat → Text) (totalPages targetChars : Nat) :
    ∀ fuel currentPage acc, totalPages + 1 ≤ fuel + currentPage →
    ∃ z, z <+: sepJoin (followingPages pages currentPage totalPages) ∧
      peekAheadGo pages totalPages targetChars fuel currentPage acc
        = acc ++ (if z = [] then [] else (if 0 < acc.length then sep else []) ++ z) := by
  intro fuel
  induction fuel with
  | zero =>
      intro currentPage acc hfc
      refine ⟨[], preNilLeft _, ?_⟩
      simp [peekAheadGo]
  | succ fuel ih =>
      intro currentPage acc hfc
      rw [peekAheadGo_succ]
      by_cases hcond : acc.length < targetChars ∧ currentPage ≤ totalPages
      · rw [if_pos hcond]
        by_cases hp : pages currentPage = []
        · rw [if_pos hp]
          obtain ⟨z, hz, heq⟩ := ih (currentPage + 1) acc (by omega)
          refine ⟨z, ?_, heq⟩
          rwa [followingPages_of_le pages currentPage totalPages hcond.2, if_pos hp,
            List.nil_append]
        · rw [if_neg hp]
          have hJ : followingPages pages currentPage totalPages
              = pages currentPage :: followingPages pages (currentPage + 1) totalPages := by
            rw [followingPages_of_le pages currentPage totalPages hcond.2, if_neg hp]
            rfl
          set contribution := (pages currentPage).take (targetChars - acc.length) with hcontr
          have hcne : contribution ≠ [] := by
            rw [hcontr]
            intro hnil
            rcases List.take_eq_nil_iff.mp hnil with h' | h'
            · omega
            · exact hp h'
          by_cases hbig : targetChars ≤
              (acc ++ (if 0 < acc.length then sep else []) ++ contribution).length
          · rw [if_pos hbig]
            refine ⟨contribution, ?_, by rw [if_neg hcne, List.append_assoc]⟩
            rw [hJ]
            exact preTrans (preTake _ _) (pre_sepJoin_head _ _)
          · rw [if_neg hbig]
            by_cases hfull : (pages currentPage).length ≤ targetChars - acc.length
            · rw [if_pos hfull]
              have hcfull : contribution = pages currentPage := by
                rw [hcontr]
                exact List.take_of_length_le hfull
              obtain ⟨z', hz', heq'⟩ := ih (currentPage + 1)
                (acc ++ (if 0 < acc.length then sep else []) ++ contribution) (by omega)
              have hane : contribution ++ (if z' = [] then [] else sep ++ z') ≠ [] := by
                intro hnil
                exact hcne (List.append_eq_nil.mp hnil).1
              have hacc2 : 0 < (acc ++ (if 0 < acc.length then sep else [])
                  ++ contribution).length := by
                rcases List.exists_cons_of_ne_nil hcne with ⟨c, cs, hcs⟩
                simp [hcs]
              refine ⟨contribution ++ (if z' = [] then [] else sep ++ z'), ?_, ?_⟩
              · rw [hJ, hcfull]
                by_cases hz'nil : z' = []
                · rw [if_pos hz'nil, List.append_nil]
                  exact pre_sepJoin_head _ _
                · rw [if_neg hz'nil]
                  cases hrest : followingPages pages (currentPage + 1) totalPages with
                  | nil =>
                      rw [hrest] at hz'
                      exact absurd (preNilRight (by simpa [sepJoin] using hz')) hz'nil
                  | cons f fs =>
                      rw [sepJoin]
                      rw [hrest] at hz'
                      have h := preAppendRight (pages currentPage ++ sep) hz'
                      simpa [List.append_assoc] using h
              · rw [heq', if_neg hane, if_pos hacc2]
                simp [List.append_assoc]
            · rw [if_neg hfull]
              refine ⟨contribution, ?_, by rw [if_neg hcne, List.append_assoc]⟩
              rw [hJ]
              exact preTrans (preTake _ _) (pre_sepJoin_head _ _)
      · rw [if_neg hcond]
        exact ⟨[], preNilLeft _, by simp⟩


/-- The lookahead text is a prefix of the `'\n\n'`-join of the non-empty
pages it was accumulated from. -/
theorem peekAhead_prefix_sepJoin (pages : Nat → Text) (startPage totalPages targetChars : Nat) :
    peekAhead pages startPage totalPages targetChars
      <+: sepJoin (followingPages pages startPage totalPages) := by
  obtain ⟨z, hz, heq⟩ := peekAheadGo_structure pages totalPages targetChars
    (totalPages + 1 - startPage) startPage [] (by omega)
  rw [peekAhead, heq]
  by_cases hznil : z = []
  · simp [hznil, preNilLeft]
  · simpa [hznil] using hz


theorem peekAheadGo_length_le (pages : Nat → Text) (totalPages targetChars : Nat) :
    ∀ fuel currentPage acc,
    (peekAheadGo pages totalPages targetChars fuel currentPage acc).length
      ≤ max acc.length (targetChars + 2) := by
  intro fuel
  induction fuel with
  | zero =>
      intro currentPage acc
      simp [peekAheadGo]
  | succ fuel ih =>
      intro currentPage acc
      rw [peekAheadGo_succ]
      by_cases hcond : acc.length < targetChars ∧ currentPage ≤ totalPages
      · rw [if_pos hcond]
        by_cases hp : pages currentPage = []
        · rw [if_pos hp]
          exact ih (currentPage + 1) acc
        · rw [if_neg hp]
          have hlen : (acc ++ (if 0 < acc.length then sep else [])
              ++ (pages currentPage).take (targetChars - acc.length)).length
              ≤ targetChars + 2 := by
            have h1 : ((pages currentPage).take (targetChars - acc.length)).length
                ≤ targetChars - acc.length := by
              simp [List.length_take]
            have h2 : (if 0 < acc.length then sep else []).length ≤ 2 := by
              by_cases h : 0 < acc.length <;> simp [h, sep]
            simp only [List.length_append]
            omega
          by_cases hbig : targetChars ≤ (acc ++ (if 0 < acc.length then sep else [])
              ++ (pages currentPage).take (targetChars - acc.length)).length
          · rw [if_pos hbig]
            omega
          · rw [if_neg hbig]
            by_cases hfull : (pages currentPage).length ≤ targetChars - acc.length
            · rw [if_pos hfull]
              exact le_trans (ih (currentPage + 1) _) (by omega)
            · rw [if_neg hfull]
              omega
      · rw [if_neg hcond]
        simp


/-- The lookahead text can exceed the target only by one final two-newline
separator. -/
theorem peekAhead_length_le (pages : Nat → Text) (startPage totalPages targetChars : Nat) :
    (peekAhead pages startPage totalPages targetChars).length ≤ targetChars + 2 := by
  have h := peekAheadGo_length_le pages totalPages targetChars
    (totalPages + 1 - startPage) startPage []
  simpa [peekAhead] using h


/-- The window enumeration is non-empty for non-empty page text and its last
start lies within one step of the end of the text. -/
theorem windowStartsGo_concat (len : Nat) :
    ∀ fuel s, s < len → len ≤ s + (CHUNK_SIZE - OVERLAP) * fuel →
    ∃ pre lastS, windowStartsGo len fuel s = pre ++ [lastS]
      ∧ len ≤ lastS + (CHUNK_SIZE - OVERLAP) := by
  intro fuel
  induction fuel with
  | zero =>
      intro s hs hle
      omega
  | succ fuel ih =>
      intro s hs hle
      rw [windowStartsGo, if_pos hs]
      by_cases hnext : s + (CHUNK_SIZE - OVERLAP) < len
      · obtain ⟨pre, lastS, heq, hlast⟩ := ih (s + (CHUNK_SIZE - OVERLAP)) hnext (by
          have : (CHUNK_SIZE - OVERLAP) * (fuel + 1)
              = (CHUNK_SIZE - OVERLAP) + (CHUNK_SIZE - OVERLAP) * fuel := by ring
          omega)
        exact ⟨s :: pre, lastS, by rw [heq]; rfl, hlast⟩
      · rw [windowStartsGo_stop len fuel _ hnext]
        exact ⟨[], s, rfl, by omega⟩


theorem windowStarts_concat (len : Nat) (h : 0 < len) :
    ∃ pre lastS, windowStarts len = pre ++ [lastS] ∧ len ≤ lastS + CHUNK_SIZE := by
  obtain ⟨pre, lastS, heq, hlast⟩ := windowStartsGo_concat len len 0 h
    (by simp [CHUNK_SIZE, OVERLAP]; omega)
  exact ⟨pre, lastS, heq, by simp [CHUNK_SIZE, OVERLAP] at hlast ⊢; omega⟩


theorem runTrace_nil (oracle : Nat → Text) (jobId : String) (init : SysState) :
    runTrace oracle jobId init [] = init := rfl


theorem runTrace_cons (oracle : Nat → Text) (jobId : String) (init : SysState)
    (e : Ev) (evs : List Ev) :
    runTrace oracle jobId init (e :: evs)
      = runTrace oracle jobId (step oracle jobId init e) evs := rfl


theorem runTrace_append (oracle : Nat → Text) (jobId : String) (init : SysState)
    (evs₁ evs₂ : List Ev) :
    runTrace oracle jobId init (evs₁ ++ evs₂)
      = runTrace oracle jobId (runTrace oracle jobId init evs₁) evs₂ :=
  List.foldl_append _ _ _ _


theorem stagedRows_append (evs₁ evs₂ : List Ev) :
    stagedRows (evs₁ ++ evs₂) = stagedRows evs₁ ++ stagedRows evs₂ := by
  induction evs₁ with
  | nil => rfl
  | cons e es ih =>
      cases e <;> simp [stagedRows, ih]


/-- Effect of a trace of pure worker events: staging grows by exactly the
staged rows (tagged with the job id), the completion counter by the number
of `workerDone` events, and nothing else observable changes. -/
theorem runTrace_workerEvs (oracle : Nat → Text) (jobId : String) :
    ∀ (evs : List Ev) (init : SysState), evs.all isWorkerEv = true →
    (runTrace oracle jobId init evs).committed = init.committed ∧
    (runTrace oracle jobId init evs).staging
      = init.staging ++ (stagedRows evs).map (fun r => (jobId, r)) ∧
    (runTrace oracle jobId init evs).bookStatus = init.bookStatus ∧
    (runTrace oracle jobId init evs).jobStatus = init.jobStatus ∧
    (runTrace oracle jobId init evs).jobError = init.jobError ∧
    (runTrace oracle jobId init evs).completedChunks
      = init.completedChunks + countDone evs ∧
    (runTrace oracle jobId init evs).pdfFile = init.pdfFile := by
  intro evs
  induction evs with
  | nil =>
      intro init _
      simp [runTrace_nil, stagedRows, countDone]
  | cons e es ih =>
      intro init hall
      rw [List.all_cons, Bool.and_eq_true] at hall
      obtain ⟨he, hes⟩ := hall
      rw [runTrace_cons]
      obtain ⟨h1, h2, h3, h4, h5, h6, h7⟩ := ih (step oracle jobId init e) hes
      cases e with
      | extractPage pdfPath page =>
          refine ⟨?_, ?_, ?_, ?_, ?_, ?_, ?_⟩ <;>
            simp_all [step, stagedRows, countDone, List.countP_cons]
      | stageBatch rows =>
          refine ⟨?_, ?_, ?_, ?_, ?_, ?_, ?_⟩ <;>
            simp_all [step, stagedRows, countDone, List.countP_cons]
      | workerDone =>
          refine ⟨?_, ?_, ?_, ?_, ?_, ?_, ?_⟩ <;>
            simp_all [step, stagedRows, countDone, List.countP_cons]
          omega
      | commitTxn ok =>
          simp [isWorkerEv] at he
      | failHandler msg =>
          simp [isWorkerEv] at he


theorem runTrace_committed_of_noCommit (oracle : Nat → Text) (jobId : String) :
    ∀ (evs : List Ev) (init : SysState), evs.all (fun e => !writesCommitted e) = true →
    (runTrace oracle jobId init evs).committed = init.committed := by
  intro evs
  induction evs with
  | nil => intro init _; rfl
  | cons e es ih =>
      intro init hall
      rw [List.all_cons, Bool.and_eq_true] at hall
      obtain ⟨he, hes⟩ := hall
      rw [runTrace_cons, ih _ hes]
      cases e with
      | extractPage p n => rfl
      | stageBatch rows => rfl
      | workerDone => rfl
      | commitTxn ok =>
          cases ok with
          | true => simp [writesCommitted] at he
          | false => rfl
      | failHandler msg => rfl


theorem workerEv_not_writesCommitted (e : Ev) (h : isWorkerEv e = true) :
    (!writesCommitted e) = true := by
  cases e <;> simp_all [isWorkerEv, writesCommitted]


/-- Cache entries are never removed: every event preserves membership. -/
theorem step_cache_mono (oracle : Nat → Text) (jobId : String) (st : SysState)
    (e : Ev) (k : String × Nat) (t : Text) (h : (k, t) ∈ st.cache) :
    (k, t) ∈ (step oracle jobId st e).cache := by
  cases e with
  | extractPage pdfPath page =>
      simp only [step, extractSinglePage]
      cases cacheGet st.cache (pdfPath, page) with
      | some u => exact h
      | none => exact List.mem_cons_of_mem _ h
  | stageBatch rows => exact h
  | workerDone => exact h
  | commitTxn ok => cases ok <;> exact h
  | failHandler msg => exact h


theorem runTrace_cache_mono (oracle : Nat → Text) (jobId : String) :
    ∀ (evs : List Ev) (init : SysState) (k : String × Nat) (t : Text),
    (k, t) ∈ init.cache → (k, t) ∈ (runTrace oracle jobId init evs).cache := by
  intro evs
  induction evs with
  | nil => intro init k t h; exact h
  | cons e es ih =>
      intro init k t h
      rw [runTrace_cons]
      exact ih _ k t (step_cache_mono oracle jobId init e k t h)


theorem staging_filter_job (jobId : String) (base : List (String × ChunkRow))
    (rows : List ChunkRow) (hbase : ∀ s ∈ base, s.1 ≠ jobId) :
    ((base ++ rows.map (fun r => (jobId, r))).filter (fun s => s.1 = jobId)).map Prod.snd
      = rows
    ∧ (base ++ rows.map (fun r => (jobId, r))).filter (fun s => ¬ s.1 = jobId)
      = base := by
  have h1 : base.filter (fun s => decide (s.1 = jobId)) = [] := by
    rw [List.filter_eq_nil_iff]
    intro a ha
    simp [hbase a ha]
  have h2 : base.filter (fun s => decide (¬ s.1 = jobId)) = base := by
    rw [List.filter_eq_self]
    intro a ha
    simp [hbase a ha]
  have h3 : (rows.map (fun r => (jobId, r))).filter (fun s => decide (s.1 = jobId))
      = rows.map (fun r => (jobId, r)) := by
    rw [List.filter_eq_self]
    intro a ha
    obtain ⟨r, _, rfl⟩ := List.mem_map.mp ha
    simp
  have h4 : (rows.map (fun r => (jobId, r))).filter (fun s => decide (¬ s.1 = jobId))
      = [] := by
    rw [List.filter_eq_nil_iff]
    intro a ha
    obtain ⟨r, _, rfl⟩ := List.mem_map.mp ha
    simp
  constructor
  · rw [List.filter_append, h1, h3, List.nil_append, List.map_map]
    simp
  · rw [List.filter_append, h2, h4, List.append_nil]


theorem digitChar_spec : ∀ d, d < 10 → (digitChar d).toNat = 48 + d ∧ digitChar d ≠ '-' := by
  decide


theorem natDigitsGo_dash : ∀ fuel n, n < fuel → '-' ∉ natDigitsGo fuel n := by
  intro fuel
  induction fuel with
  | zero => intro n hn; omega
  | succ fuel ih =>
      intro n hn
      rw [natDigitsGo]
      by_cases h : n < 10
      · rw [if_pos h]
        intro hmem
        rcases List.mem_singleton.mp hmem with hmem
        exact (digitChar_spec n h).2 hmem.symm
      · rw [if_neg h]
        intro hmem
        rcases List.mem_append.mp hmem with hmem | hmem
        · exact ih (n / 10) (by omega) hmem
        · rcases List.mem_singleton.mp hmem with hmem
          exact (digitChar_spec (n % 10) (by omega)).2 hmem.symm


theorem natDigits_dash (n : Nat) : '-' ∉ natDigits n :=
  natDigitsGo_dash (n + 1) n (by omega)


theorem valOf_concat (l : Text) (c : Char) :
    valOf (l ++ [c]) = 10 * valOf l + (c.toNat - 48) := by
  unfold valOf
  rw [List.foldl_append]
  rfl


theorem natDigitsGo_valOf : ∀ fuel n, n < fuel → valOf (natDigitsGo fuel n) = n := by
  intro fuel
  induction fuel with
  | zero => intro n hn; omega
  | succ fuel ih =>
      intro n hn
      rw [natDigitsGo]
      by_cases h : n < 10
      · rw [if_pos h]
        show valOf ([] ++ [digitChar n]) = n
        rw [valOf_concat, (digitChar_spec n h).1]
        simp [valOf]
      · rw [if_neg h]
        rw [valOf_concat, ih (n / 10) (by omega), (digitChar_spec (n % 10) (by omega)).1]
        omega


theorem natDigits_injective {a b : Nat} (h : natDigits a = natDigits b) : a = b := by
  have ha := natDigitsGo_valOf (a + 1) a (by omega)
  have hb := natDigitsGo_valOf (b + 1) b (by omega)
  unfold natDigits at h
  rw [h] at ha
  rw [hb] at ha
  exact ha.symm


theorem dash_free_append_cancel :
    ∀ (t₁ t₂ d₁ d₂ : Text), '-' ∉ d₁ → '-' ∉ d₂ →
    t₁ ++ '-' :: d₁ = t₂ ++ '-' :: d₂ → t₁ = t₂ ∧ d₁ = d₂ := by
  intro t₁
  induction t₁ with
  | nil =>
      intro t₂ d₁ d₂ h₁ h₂ heq
      cases t₂ with
      | nil =>
          rw [List.nil_append, List.nil_append] at heq
          injection heq with _ h
          exact ⟨rfl, h⟩
      | cons b t₂' =>
          rw [List.nil_append, List.cons_append] at heq
          injection heq with hb htail
          exfalso
          apply h₁
          rw [htail]
          exact List.mem_append.mpr (Or.inr (List.mem_cons_self _ _))
  | cons a t₁' ih =>
      intro t₂ d₁ d₂ h₁ h₂ heq
      cases t₂ with
      | nil =>
          rw [List.nil_append, List.cons_append] at heq
          injection heq with hb htail
          exfalso
          apply h₂
          rw [← htail]
          exact List.mem_append.mpr (Or.inr (List.mem_cons_self _ _))
      | cons b t₂' =>
          rw [List.cons_append, List.cons_append] at heq
          injection heq with hb htail
          obtain ⟨he, hd⟩ := ih t₂' d₁ d₂ h₁ h₂ htail
          exact ⟨by rw [hb, he], hd⟩


theorem citationKey_injective {t₁ t₂ : Text} {p₁ p₂ : Nat}
    (h : citationKey t₁ p₁ = citationKey t₂ p₂) : t₁ = t₂ ∧ p₁ = p₂ := by
  obtain ⟨he, hd⟩ := dash_free_append_cancel t₁ t₂ (natDigits p₁) (natDigits p₂)
    (natDigits_dash p₁) (natDigits_dash p₂) h
  exact ⟨he, natDigits_injective hd⟩


theorem buildCitations_nil (acc : List (Text × Citation)) :
    buildCitations [] acc = acc := rfl


theorem buildCitations_cons (d : SearchResult) (ds : List SearchResult)
    (acc : List (Text × Citation)) :
    buildCitations (d :: ds) acc =
      if citationKey d.book_title d.page_number ∈ acc.map Prod.fst then
        buildCitations ds acc
      else
        buildCitations ds
          (acc ++ [(citationKey d.book_title d.page_number, pairOf d)]) := rfl


/-- The `citationsMap` loop: its entries keep key/value consistent, its keys
stay duplicate-free, and its values are exactly the pairs seen so far. -/
theorem buildCitations_spec :
    ∀ (ds : List SearchResult) (acc : List (Text × Citation)),
    (∀ kc ∈ acc, kc.1 = citationKey kc.2.book_title kc.2.page_number) →
    (acc.map Prod.fst).Nodup →
    (∀ kc ∈ buildCitations ds acc,
        kc.1 = citationKey kc.2.book_title kc.2.page_number)
    ∧ ((buildCitations ds acc).map Prod.fst).Nodup
    ∧ (∀ c : Citation, c ∈ (buildCitations ds acc).map Prod.snd ↔
        (c ∈ acc.map Prod.snd ∨ c ∈ ds.map pairOf)) := by
  intro ds
  induction ds with
  | nil =>
      intro acc hinv hnd
      refine ⟨hinv, hnd, ?_⟩
      intro c
      rw [buildCitations_nil, List.map_nil]
      exact ⟨fun h => Or.inl h,
        fun h => h.elim id (fun h' => absurd h' (List.not_mem_nil c))⟩
  | cons d ds ih =>
      intro acc hinv hnd
      rw [buildCitations_cons]
      by_cases hmem : citationKey d.book_title d.page_number ∈ acc.map Prod.fst
      · rw [if_pos hmem]
        obtain ⟨h1, h2, h3⟩ := ih acc hinv hnd
        refine ⟨h1, h2, ?_⟩
        intro c
        rw [h3 c]
        constructor
        · rintro (h | h)
          · exact Or.inl h
          · exact Or.inr (by
              rw [List.map_cons]
              exact List.mem_cons_of_mem _ h)
        · rintro (h | h)
          · exact Or.inl h
          · rw [List.map_cons] at h
            rcases List.mem_cons.mp h with rfl | h
            · obtain ⟨kc, hkc_mem, hkc_eq⟩ := List.mem_map.mp hmem
              obtain ⟨k1, t2, p2⟩ := kc
              obtain ⟨ht, hp⟩ := citationKey_injective
                ((hinv _ hkc_mem).symm.trans hkc_eq)
              left
              exact List.mem_map.mpr ⟨(k1, ⟨t2, p2⟩), hkc_mem,
                (congr (congrArg Citation.mk ht) hp).symm ▸ rfl⟩
            · exact Or.inr h
      · rw [if_neg hmem]
        have hinv' : ∀ kc ∈ acc ++ [(citationKey d.book_title d.page_number, pairOf d)],
            kc.1 = citationKey kc.2.book_title kc.2.page_number := by
          intro kc hkc
          rcases List.mem_append.mp hkc with hkc | hkc
          · exact hinv kc hkc
          · rcases List.mem_singleton.mp hkc with rfl
            rfl
        have hnd' : ((acc ++ [(citationKey d.book_title d.page_number, pairOf d)]).map
            Prod.fst).Nodup := by
          rw [List.map_append]
          simp only [List.map_cons, List.map_nil]
          rw [List.nodup_append]
          refine ⟨hnd, List.nodup_singleton _, ?_⟩
          intro k hk hk'
          rcases List.mem_singleton.mp hk' with rfl
          exact hmem hk
        obtain ⟨h1, h2, h3⟩ := ih _ hinv' hnd'
        refine ⟨h1, h2, ?_⟩
        intro c
        rw [h3 c]
        rw [List.map_append, List.map_cons]
        simp only [List.map_cons, List.map_nil, List.mem_append,
          List.mem_singleton, List.mem_cons]
        tauto

/-! # The claims

Each claim of the specification is settled by one theorem below (with a
witness when the theorem has hypotheses, and a counterexample when the claim
as stated fails on the code). -/

theorem all_of_pre {α : Type} {p : α → Bool} {l tr : List α}
    (h : l.all p = true) (hpre : tr <+: l) : tr.all p = true := by
  obtain ⟨t, ht⟩ := hpre
  rw [← ht, List.all_append, Bool.and_eq_true] at h
  exact h.1

theorem all_not_writes_of_workers {l : List Ev} (h : l.all isWorkerEv = true) :
    l.all (fun e => !writesCommitted e) = true := by
  rw [List.all_eq_true] at h ⊢
  intro e he
  exact workerEv_not_writesCommitted e (h e he)

/-- Claim C1 (confirmed): for every ingestion job, after processing
terminates — successfully, or after any failure, including one injected
during the commit step — either all of the job's chunks are in the committed
store and no staging rows of the job remain, or the committed store is
exactly as it began (no chunk of the job is present); and at every reachable
state the committed store is all-or-nothing, never a proper non-empty subset
of the job's chunks. -/
theorem ingestion_all_or_nothing (oracle : Nat → Text) (jobId : String)
    (init : SysState) (evs : List Ev) (hrun : JobRun evs)
    (hinit : ∀ s ∈ init.staging, s.1 ≠ jobId) :
    (((runTrace oracle jobId init evs).committed = init.committed ++ stagedRows evs
        ∧ (runTrace oracle jobId init evs).staging.filter (fun s => s.1 = jobId) = [])
      ∨ (runTrace oracle jobId init evs).committed = init.committed)
    ∧ ∀ tr, tr <+: evs →
        (runTrace oracle jobId init tr).committed = init.committed
        ∨ (runTrace oracle jobId init tr).committed = init.committed ++ stagedRows evs := by
  cases hrun with
  | success evs₀ hw hc =>
      obtain ⟨W1, W2, _, _, _, _, _⟩ := runTrace_workerEvs oracle jobId evs₀ init hw
      obtain ⟨F1, F2⟩ := staging_filter_job jobId init.staging (stagedRows evs₀) hinit
      have hsr : stagedRows (evs₀ ++ [Ev.commitTxn true]) = stagedRows evs₀ := by
        rw [stagedRows_append]
        simp [stagedRows]
      have hfin : runTrace oracle jobId init (evs₀ ++ [Ev.commitTxn true])
          = step oracle jobId (runTrace oracle jobId init evs₀) (Ev.commitTxn true) := by
        rw [runTrace_append]
        rfl
      constructor
      · left
        constructor
        · rw [hfin, hsr]
          show (runTrace oracle jobId init evs₀).committed
              ++ ((runTrace oracle jobId init evs₀).staging.filter
                (fun s => s.1 = jobId)).map Prod.snd
            = init.committed ++ stagedRows evs₀
          rw [W1, W2, F1]
        · rw [hfin]
          show ((runTrace oracle jobId init evs₀).staging.filter
              (fun s => ¬ s.1 = jobId)).filter (fun s => s.1 = jobId) = []
          rw [W2, F2]
          rw [List.filter_eq_nil_iff]
          intro a ha
          simp [hinit a ha]
      · intro tr htr
        rcases preAppendCases [Ev.commitTxn true] evs₀ tr htr with htr' | ⟨t₂, ht₂, rfl⟩
        · left
          exact (runTrace_workerEvs oracle jobId tr init (all_of_pre hw htr')).1
        · rcases preSingleton ht₂ with rfl | rfl
          · left
            rw [List.append_nil]
            exact W1
          · right
            rw [hfin, hsr]
            show (runTrace oracle jobId init evs₀).committed
                ++ ((runTrace oracle jobId init evs₀).staging.filter
                  (fun s => s.1 = jobId)).map Prod.snd
              = init.committed ++ stagedRows evs₀
            rw [W1, W2, F1]
  | commitFail evs₀ msg hw hc =>
      obtain ⟨W1, W2, _, _, _, _, _⟩ := runTrace_workerEvs oracle jobId evs₀ init hw
      have hnc : (evs₀ ++ [Ev.commitTxn false, Ev.failHandler msg]).all
          (fun e => !writesCommitted e) = true := by
        rw [List.all_append, Bool.and_eq_true]
        exact ⟨all_not_writes_of_workers hw, rfl⟩
      constructor
      · right
        exact runTrace_committed_of_noCommit oracle jobId _ init hnc
      · intro tr htr
        left
        exact runTrace_committed_of_noCommit oracle jobId tr init
          (all_of_pre hnc htr)
  | workerFail evs₁ evs₂ msg hw =>
      have hnc : (evs₁ ++ Ev.failHandler msg :: evs₂).all
          (fun e => !writesCommitted e) = true := by
        rw [List.all_eq_true]
        intro e he
        rcases List.mem_append.mp he with he | he
        · exact workerEv_not_writesCommitted e
            (List.all_eq_true.mp hw e (List.mem_append.mpr (Or.inl he)))
        · rcases List.mem_cons.mp he with rfl | he
          · rfl
          · exact workerEv_not_writesCommitted e
              (List.all_eq_true.mp hw e (List.mem_append.mpr (Or.inr he)))
      constructor
      · right
        exact runTrace_committed_of_noCommit oracle jobId _ init hnc
      · intro tr htr
        left
        exact runTrace_committed_of_noCommit oracle jobId tr init
          (all_of_pre hnc htr)

/-- Witness for C1 at a concrete successful run. -/
theorem ingestion_all_or_nothing_witness :
    (((runTrace oracleX "j1" initX traceSuccess).committed
          = initX.committed ++ stagedRows traceSuccess
        ∧ (runTrace oracleX "j1" initX traceSuccess).staging.filter
            (fun s => s.1 = "j1") = [])
      ∨ (runTrace oracleX "j1" initX traceSuccess).committed = initX.committed)
    ∧ ∀ tr, tr <+: traceSuccess →
        (runTrace oracleX "j1" initX tr).committed = initX.committed
        ∨ (runTrace oracleX "j1" initX tr).committed
            = initX.committed ++ stagedRows traceSuccess :=
  ingestion_all_or_nothing oracleX "j1" initX traceSuccess
    (JobRun.success [Ev.stageBatch [rowX], Ev.workerDone, Ev.workerDone, Ev.workerDone]
      (by decide) (by decide))
    (by intro s hs; simp [initX] at hs)

/-- Claim C2 (confirmed): on an empty corpus, or when every retrieved
result's distance exceeds the 0.5 similarity threshold (in particular when
the best one does), `processQuery` returns a fixed refusal string and an
empty citation list, and issues no completion request. -/
theorem refusal_law (env : RagEnv) (query : Text) (topicId : Option String)
    (h : env.corpus = [] ∨ ∀ r ∈ searchSimilarDocuments env query topicId 5,
        SIMILARITY_THRESHOLD < r.distance) :
    ((processQuery env query topicId).1.answer = NO_DOCS_REFUSAL
      ∨ (processQuery env query topicId).1.answer = NO_RELEVANT_REFUSAL)
    ∧ (processQuery env query topicId).1.citations = []
    ∧ (processQuery env query topicId).2 = [] := by
  by_cases hd : hasDocuments env = true
  · have hall : ∀ r ∈ searchSimilarDocuments env query topicId 5,
        SIMILARITY_THRESHOLD < r.distance := by
      rcases h with hnil | hall
      · exfalso
        unfold hasDocuments at hd
        rw [hnil] at hd
        simp at hd
      · exact hall
    have hrel : (searchSimilarDocuments env query topicId 5).filter
        (fun (r : SearchResult) => r.distance ≤ SIMILARITY_THRESHOLD) = [] := by
      rw [List.filter_eq_nil_iff]
      intro r hr
      rw [decide_eq_true_eq]
      exact not_le.mpr (hall r hr)
    unfold processQuery
    rw [if_neg (by simpa using hd)]
    dsimp only
    rw [hrel]
    norm_num
  · unfold processQuery
    rw [if_pos (by simpa using hd)]
    exact ⟨Or.inl rfl, rfl, rfl⟩

/-- Witness for C2 on the empty corpus. -/
theorem refusal_law_witness :
    ((processQuery envEmpty [] none).1.answer = NO_DOCS_REFUSAL
      ∨ (processQuery envEmpty [] none).1.answer = NO_RELEVANT_REFUSAL)
    ∧ (processQuery envEmpty [] none).1.citations = []
    ∧ (processQuery envEmpty [] none).2 = [] :=
  refusal_law envEmpty [] none (Or.inl rfl)

/-- Counterexample to C3 as stated: in a run whose commit transaction fails,
the job had one staged row while the transaction was live, yet after the
process terminates the staging table is empty — the failure handler of
`processBookInBackground` deleted the job's staging rows, so they are NOT
left intact for diagnosis or retry. -/
theorem commit_failure_staging_deleted_cx :
    JobRun traceCommitFail
    ∧ stagedRows traceCommitFail = [rowX]
    ∧ (runTrace oracleX "j1" initX (traceCommitFail.take 5)).staging = [("j1", rowX)]
    ∧ (runTrace oracleX "j1" initX traceCommitFail).staging = []
    ∧ (runTrace oracleX "j1" initX traceCommitFail).committed = []
    ∧ (runTrace oracleX "j1" initX traceCommitFail).jobStatus = "failed" := by
  refine ⟨JobRun.commitFail
    [Ev.stageBatch [rowX], Ev.workerDone, Ev.workerDone, Ev.workerDone]
    "commit failed" (by decide) (by decide), ?_, ?_, ?_, ?_, ?_⟩ <;> decide

/-- Claim C3 (amended): when the commit transaction fails partway, the
rollback leaves the committed store exactly as it was and, at that instant,
every staging row of the job intact; but the job-level failure handler then
deletes the job's staging rows and marks book and job `failed`, so after
termination no staging rows of the job remain. -/
theorem commit_failure_rollback_and_cleanup (oracle : Nat → Text) (jobId : String)
    (init : SysState) (evs₀ : List Ev) (msg : String)
    (hw : evs₀.all isWorkerEv = true)
    (hinit : ∀ s ∈ init.staging, s.1 ≠ jobId) :
    ((runTrace oracle jobId init (evs₀ ++ [Ev.commitTxn false])).committed
        = init.committed
      ∧ (runTrace oracle jobId init (evs₀ ++ [Ev.commitTxn false])).staging
        = init.staging ++ (stagedRows evs₀).map (fun r => (jobId, r)))
    ∧ (runTrace oracle jobId init
          (evs₀ ++ [Ev.commitTxn false, Ev.failHandler msg])).committed
        = init.committed
    ∧ (runTrace oracle jobId init
          (evs₀ ++ [Ev.commitTxn false, Ev.failHandler msg])).staging.filter
        (fun s => s.1 = jobId) = []
    ∧ (runTrace oracle jobId init
          (evs₀ ++ [Ev.commitTxn false, Ev.failHandler msg])).jobStatus = "failed"
    ∧ (runTrace oracle jobId init
          (evs₀ ++ [Ev.commitTxn false, Ev.failHandler msg])).bookStatus = "failed" := by
  obtain ⟨W1, W2, _, _, _, _, _⟩ := runTrace_workerEvs oracle jobId evs₀ init hw
  obtain ⟨F1, F2⟩ := staging_filter_job jobId init.staging (stagedRows evs₀) hinit
  have hfin2 : runTrace oracle jobId init (evs₀ ++ [Ev.commitTxn false])
      = runTrace oracle jobId init evs₀ := by
    rw [runTrace_append]
    rfl
  have hfin3 : runTrace oracle jobId init
      (evs₀ ++ [Ev.commitTxn false, Ev.failHandler msg])
      = step oracle jobId (runTrace oracle jobId init evs₀) (Ev.failHandler msg) := by
    rw [runTrace_append]
    rfl
  refine ⟨⟨?_, ?_⟩, ?_, ?_, ?_, ?_⟩
  · rw [hfin2, W1]
  · rw [hfin2, W2]
  · rw [hfin3]
    exact W1
  · rw [hfin3]
    show ((runTrace oracle jobId init evs₀).staging.filter
        (fun s => ¬ s.1 = jobId)).filter (fun s => s.1 = jobId) = []
    rw [W2, F2, List.filter_eq_nil_iff]
    intro a ha
    simp [hinit a ha]
  · rw [hfin3]
    rfl
  · rw [hfin3]
    rfl

/-- Witness for C3 (amended) at a concrete commit-failure run. -/
theorem commit_failure_witness :
    ((runTrace oracleX "j1" initX
        ([Ev.stageBatch [rowX], Ev.workerDone, Ev.workerDone, Ev.workerDone]
          ++ [Ev.commitTxn false])).committed = initX.committed
      ∧ (runTrace oracleX "j1" initX
          ([Ev.stageBatch [rowX], Ev.workerDone, Ev.workerDone, Ev.workerDone]
            ++ [Ev.commitTxn false])).staging
        = initX.staging ++ (stagedRows [Ev.stageBatch [rowX], Ev.workerDone,
            Ev.workerDone, Ev.workerDone]).map (fun r => ("j1", r)))
    ∧ (runTrace oracleX "j1" initX
        ([Ev.stageBatch [rowX], Ev.workerDone, Ev.workerDone, Ev.workerDone]
          ++ [Ev.commitTxn false, Ev.failHandler "commit failed"])).committed
        = initX.committed
    ∧ (runTrace oracleX "j1" initX
        ([Ev.stageBatch [rowX], Ev.workerDone, Ev.workerDone, Ev.workerDone]
          ++ [Ev.commitTxn false, Ev.failHandler "commit failed"])).staging.filter
        (fun s => s.1 = "j1") = []
    ∧ (runTrace oracleX "j1" initX
        ([Ev.stageBatch [rowX], Ev.workerDone, Ev.workerDone, Ev.workerDone]
          ++ [Ev.commitTxn false, Ev.failHandler "commit failed"])).jobStatus = "failed"
    ∧ (runTrace oracleX "j1" initX
        ([Ev.stageBatch [rowX], Ev.workerDone, Ev.workerDone, Ev.workerDone]
          ++ [Ev.commitTxn false, Ev.failHandler "commit failed"])).bookStatus
        = "failed" :=
  commit_failure_rollback_and_cleanup oracleX "j1" initX
    [Ev.stageBatch [rowX], Ev.workerDone, Ev.workerDone, Ev.workerDone]
    "commit failed" (by decide) (by intro s hs; simp [initX] at hs)

/-- Counterexample to C4 as stated: in a successful run the job's status
goes straight from `processing` to `complete`; no state along the run ever
has status `committing` (the code never writes that value, although the
schema comment reserves it). -/
theorem job_status_no_committing_cx :
    JobRun traceSuccess
    ∧ ([0, 1, 2, 3, 4, 5].map
        (fun k => (runTrace oracleX "j1" initX (traceSuccess.take k)).jobStatus))
      = ["processing", "processing", "processing", "processing", "processing",
          "complete"]
    ∧ "committing" ∉ ([0, 1, 2, 3, 4, 5].map
        (fun k => (runTrace oracleX "j1" initX (traceSuccess.take k)).jobStatus)) := by
  refine ⟨JobRun.success
    [Ev.stageBatch [rowX], Ev.workerDone, Ev.workerDone, Ev.workerDone]
    (by decide) (by decide), ?_, ?_⟩ <;> decide

/-- Claim C4 (amended): the job state machine is
`processing → complete | failed`: along every run each reachable state has
status `processing`, `complete` (and then all `WORKERS = 3` workers had
incremented the completion counter before the commit transaction ran), or
`failed`; the status `committing` is never written. -/
theorem job_status_machine (oracle : Nat → Text) (jobId : String)
    (init : SysState) (evs : List Ev) (hrun : JobRun evs)
    (hst : init.jobStatus = "processing") (hcc : init.completedChunks = 0) :
    (∀ tr, tr <+: evs →
        (runTrace oracle jobId init tr).jobStatus = "processing"
        ∨ ((runTrace oracle jobId init tr).jobStatus = "complete"
            ∧ (runTrace oracle jobId init tr).completedChunks = WORKERS)
        ∨ (runTrace oracle jobId init tr).jobStatus = "failed")
    ∧ (∀ tr, tr <+: evs → (runTrace oracle jobId init tr).jobStatus ≠ "committing") := by
  have master : ∀ tr, tr <+: evs →
      (runTrace oracle jobId init tr).jobStatus = "processing"
      ∨ ((runTrace oracle jobId init tr).jobStatus = "complete"
          ∧ (runTrace oracle jobId init tr).completedChunks = WORKERS)
      ∨ (runTrace oracle jobId init tr).jobStatus = "failed" := by
    cases hrun with
    | success evs₀ hw hc =>
        intro tr htr
        rcases preAppendCases [Ev.commitTxn true] evs₀ tr htr with htr' | ⟨t₂, ht₂, rfl⟩
        · obtain ⟨_, _, _, S, _, _, _⟩ :=
            runTrace_workerEvs oracle jobId tr init (all_of_pre hw htr')
          left
          rw [S, hst]
        · rcases preSingleton ht₂ with rfl | rfl
          · obtain ⟨_, _, _, S, _, _, _⟩ := runTrace_workerEvs oracle jobId evs₀ init hw
            left
            rw [List.append_nil, S, hst]
          · obtain ⟨_, _, _, _, _, C, _⟩ := runTrace_workerEvs oracle jobId evs₀ init hw
            right
            left
            have hfin : runTrace oracle jobId init (evs₀ ++ [Ev.commitTxn true])
                = step oracle jobId (runTrace oracle jobId init evs₀)
                    (Ev.commitTxn true) := by
              rw [runTrace_append]
              rfl
            rw [hfin]
            refine ⟨rfl, ?_⟩
            show (runTrace oracle jobId init evs₀).completedChunks = WORKERS
            rw [C, hcc, hc]
            omega
    | commitFail evs₀ msg hw hc =>
        intro tr htr
        rcases preAppendCases [Ev.commitTxn false, Ev.failHandler msg] evs₀ tr htr
          with htr' | ⟨t₂, ht₂, rfl⟩
        · obtain ⟨_, _, _, S, _, _, _⟩ :=
            runTrace_workerEvs oracle jobId tr init (all_of_pre hw htr')
          left
          rw [S, hst]
        · obtain ⟨_, _, _, S, _, _, _⟩ := runTrace_workerEvs oracle jobId evs₀ init hw
          rcases preCons ht₂ with rfl | ⟨t₃, ht₃, rfl⟩
          · left
            rw [List.append_nil, S, hst]
          · rcases preSingleton ht₃ with rfl | rfl
            · left
              have heq2 : runTrace oracle jobId init (evs₀ ++ [Ev.commitTxn false])
                  = runTrace oracle jobId init evs₀ := by
                rw [runTrace_append]
                rfl
              rw [heq2, S, hst]
            · right
              right
              have heq3 : runTrace oracle jobId init
                  (evs₀ ++ [Ev.commitTxn false, Ev.failHandler msg])
                  = step oracle jobId (runTrace oracle jobId init evs₀)
                      (Ev.failHandler msg) := by
                rw [runTrace_append]
                rfl
              rw [heq3]
              rfl
    | workerFail evs₁ evs₂ msg hw =>
        have hw1 : evs₁.all isWorkerEv = true := by
          rw [List.all_append, Bool.and_eq_true] at hw
          exact hw.1
        have hw2 : evs₂.all isWorkerEv = true := by
          rw [List.all_append, Bool.and_eq_true] at hw
          exact hw.2
        intro tr htr
        rcases preAppendCases (Ev.failHandler msg :: evs₂) evs₁ tr htr
          with htr' | ⟨t₂, ht₂, rfl⟩
        · obtain ⟨_, _, _, S, _, _, _⟩ :=
            runTrace_workerEvs oracle jobId tr init (all_of_pre hw1 htr')
          left
          rw [S, hst]
        · obtain ⟨_, _, _, S1, _, _, _⟩ := runTrace_workerEvs oracle jobId evs₁ init hw1
          rcases preCons ht₂ with rfl | ⟨t₃, ht₃, rfl⟩
          · left
            rw [List.append_nil, S1, hst]
          · right
            right
            have hsplit : runTrace oracle jobId init (evs₁ ++ Ev.failHandler msg :: t₃)
                = runTrace oracle jobId
                    (step oracle jobId (runTrace oracle jobId init evs₁)
                      (Ev.failHandler msg)) t₃ := by
              rw [runTrace_append]
              rfl
            obtain ⟨_, _, _, S3, _, _, _⟩ := runTrace_workerEvs oracle jobId t₃
              (step oracle jobId (runTrace oracle jobId init evs₁) (Ev.failHandler msg))
              (all_of_pre hw2 ht₃)
            rw [hsplit, S3]
            rfl
  refine ⟨master, ?_⟩
  intro tr htr hbad
  rcases master tr htr with h | ⟨h, _⟩ | h <;> rw [h] at hbad <;>
    exact absurd hbad (by decide)

/-- Witness for C4 (amended) at a concrete successful run. -/
theorem job_status_machine_witness :
    (∀ tr, tr <+: traceSuccess →
        (runTrace oracleX "j1" initX tr).jobStatus = "processing"
        ∨ ((runTrace oracleX "j1" initX tr).jobStatus = "complete"
            ∧ (runTrace oracleX "j1" initX tr).completedChunks = WORKERS)
        ∨ (runTrace oracleX "j1" initX tr).jobStatus = "failed")
    ∧ (∀ tr, tr <+: traceSuccess →
        (runTrace oracleX "j1" initX tr).jobStatus ≠ "committing") :=
  job_status_machine oracleX "j1" initX traceSuccess
    (JobRun.success [Ev.stageBatch [rowX], Ev.workerDone, Ev.workerDone, Ev.workerDone]
      (by decide) (by decide)) rfl rfl

/-- Counterexample to C5 as stated: on a 900-character page followed by a
short page, the window starts are 0 and 800, and BOTH emitted chunks carry
the appended lookahead tail (`sep ++ 'bbbbbbbbbb'`) beyond their own window
of the page — so a window other than the page's last one was extended. -/
theorem two_windows_extended_cx :
    windowStarts (pages900 1).length = [0, 800]
    ∧ (processPage pages900 1 2).map TextChunk.text
      = [List.replicate 900 'a' ++ sep ++ List.replicate 10 'b',
         List.replicate 100 'a' ++ sep ++ List.replicate 10 'b']
    ∧ windowBase (pages900 1) 0 = List.replicate 900 'a'
    ∧ windowBase (pages900 1) 800 = List.replicate 100 'a'
    ∧ peekAhead pages900 2 2 LOOKAHEAD_TARGET = List.replicate 10 'b' := by
  refine ⟨?_, ?_, ?_, ?_, ?_⟩ <;> decide

/-- Claim C5 (amended): a window is extended with lookahead text exactly
when its start lies within `CHUNK_SIZE` of the end of the page text, the
page is not the document's last, and the lookahead text is non-empty; the
page's last window always satisfies the start condition (so it is always
extended in that situation), but — since the step 800 is smaller than the
window size 1000 — the immediately preceding window may satisfy it too and
then also receives the lookahead text; no window of the last page is
extended. -/
theorem lookahead_extension_rule (pages : Nat → Text) (pageNum totalPages : Nat) :
    ((processPage pages pageNum totalPages).map TextChunk.text
      = ((windowTexts pages pageNum totalPages).map trim).filter
          (fun t => 50 < t.length))
    ∧ (∀ s, windowText pages (pages pageNum) pageNum totalPages s
          ≠ windowBase (pages pageNum) s
        ↔ ((pages pageNum).length ≤ s + CHUNK_SIZE ∧ pageNum < totalPages
            ∧ peekAhead pages (pageNum + 1) totalPages LOOKAHEAD_TARGET ≠ []))
    ∧ (pages pageNum ≠ [] → ∃ pre lastS,
        windowStarts (pages pageNum).length = pre ++ [lastS]
          ∧ (pages pageNum).length ≤ lastS + CHUNK_SIZE) := by
  refine ⟨processPage_text_spec pages pageNum totalPages, ?_, ?_⟩
  · intro s
    constructor
    · intro hne
      unfold windowText at hne
      dsimp only at hne
      by_cases hcond : (pages pageNum).length ≤ s + CHUNK_SIZE ∧ pageNum < totalPages
      · rw [if_pos hcond] at hne
        by_cases hla : peekAhead pages (pageNum + 1) totalPages LOOKAHEAD_TARGET ≠ []
        · exact ⟨hcond.1, hcond.2, hla⟩
        · rw [if_neg hla] at hne
          exact absurd rfl hne
      · rw [if_neg hcond] at hne
        exact absurd rfl hne
    · rintro ⟨h1, h2, h3⟩
      unfold windowText
      dsimp only
      rw [if_pos ⟨h1, h2⟩, if_pos h3]
      intro heq
      have hlen := congrArg List.length heq
      rw [List.length_append, List.length_append] at hlen
      simp only [sep, List.length_cons, List.length_nil] at hlen
      omega
  · intro hne
    exact windowStarts_concat (pages pageNum).length (List.length_pos.mpr hne)

/-- Witness for C5 (amended) on the 900-character page. -/
theorem lookahead_extension_witness :
    ((processPage pages900 1 2).map TextChunk.text
      = ((windowTexts pages900 1 2).map trim).filter (fun t => 50 < t.length))
    ∧ (windowText pages900 (pages900 1) 1 2 0 ≠ windowBase (pages900 1) 0
        ↔ ((pages900 1).length ≤ 0 + CHUNK_SIZE ∧ 1 < 2
            ∧ peekAhead pages900 2 2 LOOKAHEAD_TARGET ≠ []))
    ∧ (∃ pre lastS, windowStarts (pages900 1).length = pre ++ [lastS]
        ∧ (pages900 1).length ≤ lastS + CHUNK_SIZE) := by
  obtain ⟨h1, h2, h3⟩ := lookahead_extension_rule pages900 1 2
  exact ⟨h1, h2 0, h3 (by decide)⟩

/-- Counterexample to C8 as stated: a page of exactly 50 non-whitespace
characters yields one window whose trimmed text has length exactly 50, yet
`processPage` discards it — the keep condition is strictly
`trim(text).length > 50`, not `≥ 50`. -/
theorem min_length_boundary_cx :
    ((windowTexts pages50 1 1).map trim).filter (fun t => 50 ≤ t.length)
      = [List.replicate 50 'a']
    ∧ (processPage pages50 1 1).map TextChunk.text = []
    ∧ (trim (List.replicate 50 'a')).length = 50 := by
  refine ⟨?_, ?_, ?_⟩ <;> decide

/-- Claim C8 (amended): a window is discarded exactly when its trimmed text
is 50 characters or shorter: `processPage` emits, in order, exactly the
trimmed window texts whose length is strictly greater than 50. -/
theorem chunk_min_length_rule (pages : Nat → Text) (pageNum totalPages : Nat) :
    (processPage pages pageNum totalPages).map TextChunk.text
      = ((windowTexts pages pageNum totalPages).map trim).filter
          (fun t => 50 < t.length) :=
  processPage_text_spec pages pageNum totalPages

theorem peekAhead_pagesBC : peekAhead pagesBC 2 3 LOOKAHEAD_TARGET = laBC := by
  have h2 : pagesBC 2 = List.replicate 1999 'b' := rfl
  have h3 : pagesBC 3 = List.replicate 10 'c' := rfl
  rw [peekAhead]
  rw [show (3 : Nat) + 1 - 2 = 1 + 1 from rfl]
  rw [peekAheadGo_succ]
  rw [if_pos (by constructor <;> norm_num [LOOKAHEAD_TARGET])]
  dsimp only
  rw [if_neg (by rw [h2]; simp)]
  rw [h2]
  simp only [List.length_nil, Nat.sub_zero, List.take_replicate, LOOKAHEAD_TARGET]
  simp only [show (2000 : Nat) ⊓ 1999 = 1999 by norm_num, List.nil_append,
    if_neg (Nat.lt_irrefl 0), List.length_replicate]
  rw [if_neg (by norm_num), if_pos (by norm_num)]
  rw [show (1 : Nat) = 0 + 1 from rfl, peekAheadGo_succ]
  rw [if_pos (by simp)]
  dsimp only
  rw [if_neg (by rw [h3]; simp)]
  rw [h3]
  simp only [List.length_replicate, List.take_replicate]
  simp only [show (2000 - 1999 : Nat) ⊓ 10 = 1 by norm_num,
    if_pos (show (0:Nat) < 1999 by norm_num), List.length_append,
    List.length_replicate, show sep.length = 2 from rfl]
  rw [if_pos (by norm_num)]
  simp only [laBC, List.replicate_one, List.append_assoc]

theorem processPage_pagesBC : (processPage pagesBC 1 3).map TextChunk.text
    = [List.replicate 100 'a' ++ sep ++ laBC] := by
  have h1 : pagesBC 1 = List.replicate 100 'a' := rfl
  have hws : windowStarts (pagesBC 1).length = [0] := by
    rw [h1, List.length_replicate]
    decide
  have hwt : windowText pagesBC (pagesBC 1) 1 3 0
      = List.replicate 100 'a' ++ sep ++ laBC := by
    unfold windowText windowBase
    rw [if_pos (⟨by rw [h1]; simp [CHUNK_SIZE], by norm_num⟩ :
      (pagesBC 1).length ≤ 0 + CHUNK_SIZE ∧ 1 < 3)]
    dsimp only
    rw [show (1 : Nat) + 1 = 2 from rfl, peekAhead_pagesBC]
    rw [if_pos (by simp [laBC])]
    rw [h1]
    unfold substr
    simp [CHUNK_SIZE, List.take_replicate]
  have htrim : trim (List.replicate 100 'a' ++ sep ++ laBC)
      = List.replicate 100 'a' ++ sep ++ laBC := by
    apply trim_eq_self
    · intro c hc
      rw [List.head?_append_of_ne_nil _ (by simp),
        List.head?_append_of_ne_nil _ (by simp)] at hc
      have hca : c = 'a' := by
        rw [show (List.replicate 100 'a').head? = some 'a' from rfl] at hc
        exact (Option.some_inj.mp hc).symm
      rw [hca]
      decide
    · intro c hc
      rw [show List.replicate 100 'a' ++ sep ++ laBC
          = (List.replicate 100 'a' ++ sep ++ (List.replicate 1999 'b' ++ sep)) ++ ['c']
          by simp [laBC, List.append_assoc]] at hc
      rw [List.getLast?_append_of_ne_nil _ (by simp)] at hc
      have hcc : c = 'c' := by
        rw [show (['c'] : Text).getLast? = some 'c' from rfl] at hc
        exact (Option.some_inj.mp hc).symm
      rw [hcc]
      decide
  rw [processPage_text_spec]
  unfold windowTexts
  rw [hws, List.map_cons, List.map_nil, hwt, List.map_cons, List.map_nil, htrim]
  rw [List.filter_cons]
  rw [if_pos (by
    simp only [laBC, List.length_append, List.length_replicate,
      show sep.length = 2 from rfl]
    norm_num)]
  rfl

/-- Counterexample to C6 as stated: on `pagesBC` the only chunk of page 1 is
extended with the lookahead text `laBC`, which is 2002 characters long
(separators are not counted against the 2000-character budget), so it is not
a prefix of the following pages' concatenation truncated at the lookahead
target — neither of the plain concatenation nor of the
two-newline-separated join. -/
theorem lookahead_not_plain_prefix_cx :
    (processPage pagesBC 1 3).map TextChunk.text
      = [List.replicate 100 'a' ++ sep ++ laBC]
    ∧ peekAhead pagesBC 2 3 LOOKAHEAD_TARGET = laBC
    ∧ laBC.length = LOOKAHEAD_TARGET + 2
    ∧ ¬ (laBC <+: (pagesBC 2 ++ pagesBC 3).take LOOKAHEAD_TARGET)
    ∧ ¬ (laBC <+: (joinWith sep [pagesBC 2, pagesBC 3]).take LOOKAHEAD_TARGET) := by
  have hlen : laBC.length = 2002 := by
    simp [laBC, sep]
  refine ⟨processPage_pagesBC, peekAhead_pagesBC, by rw [hlen]; rfl, ?_, ?_⟩
  · intro hpre
    have hle := preLength hpre
    rw [hlen, List.length_take] at hle
    unfold LOOKAHEAD_TARGET at hle
    omega
  · intro hpre
    have hle := preLength hpre
    rw [hlen, List.length_take] at hle
    unfold LOOKAHEAD_TARGET at hle
    omega

/-- Claim C6 (amended): the trailing content appended after a page's own
text is the two-newline separator followed by the lookahead text, and that
lookahead text is a prefix of the two-newline-separated join of the
following non-empty pages' texts (each page's contribution is truncated
against the budget remaining before its separator is added, so the total
may exceed the 2000-character target by up to the final separator's two
characters, and no truncated-concatenation prefix relation holds). -/
theorem lookahead_boundary_continuity (pages : Nat → Text)
    (startPage totalPages targetChars : Nat) :
    peekAhead pages startPage totalPages targetChars
        <+: sepJoin (followingPages pages startPage totalPages)
    ∧ (peekAhead pages startPage totalPages targetChars).length ≤ targetChars + 2 :=
  ⟨peekAhead_prefix_sepJoin pages startPage totalPages targetChars,
    peekAhead_length_le pages startPage totalPages targetChars⟩

/-- Claim C7 (confirmed): for every `totalPages ≥ 1` the three workers'
page ranges `[i·⌈totalPages/3⌉ + 1, min((i+1)·⌈totalPages/3⌉, totalPages)]`
stay inside `[1, totalPages]` and cover it with every page in exactly one
worker's range (ranges are intervals by construction, hence contiguous, and
a trailing range can be empty). -/
theorem worker_partition (totalPages : Nat) (hN : 1 ≤ totalPages) :
    (∀ i q, i < WORKERS → inWorkerRange i totalPages q → 1 ≤ q ∧ q ≤ totalPages)
    ∧ ∀ q, 1 ≤ q → q ≤ totalPages →
        ∃! i, i < WORKERS ∧ inWorkerRange i totalPages q := by
  have hp : 1 ≤ pagesPerWorker totalPages := by
    unfold pagesPerWorker WORKERS
    omega
  have h3p : totalPages ≤ 3 * pagesPerWorker totalPages := by
    unfold pagesPerWorker WORKERS
    omega
  constructor
  · intro i q hi hr
    obtain ⟨hs, he⟩ := hr
    unfold processStart at hs
    unfold processEnd at he
    omega
  · intro q hq1 hq2
    by_cases hc1 : q ≤ pagesPerWorker totalPages
    · refine ⟨0, ⟨by norm_num [WORKERS], ?_, ?_⟩, ?_⟩
      · unfold processStart
        omega
      · unfold processEnd
        omega
      · rintro j ⟨hj, hjs, hje⟩
        unfold WORKERS at hj
        unfold processStart at hjs
        unfold processEnd at hje
        interval_cases j
        · rfl
        · omega
        · omega
    · by_cases hc2 : q ≤ 2 * pagesPerWorker totalPages
      · refine ⟨1, ⟨by norm_num [WORKERS], ?_, ?_⟩, ?_⟩
        · unfold processStart
          omega
        · unfold processEnd
          omega
        · rintro j ⟨hj, hjs, hje⟩
          unfold WORKERS at hj
          unfold processStart at hjs
          unfold processEnd at hje
          interval_cases j
          · omega
          · rfl
          · omega
      · refine ⟨2, ⟨by norm_num [WORKERS], ?_, ?_⟩, ?_⟩
        · unfold processStart
          omega
        · unfold processEnd
          omega
        · rintro j ⟨hj, hjs, hje⟩
          unfold WORKERS at hj
          unfold processStart at hjs
          unfold processEnd at hje
          interval_cases j
          · omega
          · omega
          · rfl

/-- Witness for C7 on a 5-page document. -/
theorem worker_partition_witness :
    (∀ i q, i < WORKERS → inWorkerRange i 5 q → 1 ≤ q ∧ q ≤ 5)
    ∧ ∀ q, 1 ≤ q → q ≤ 5 → ∃! i, i < WORKERS ∧ inWorkerRange i 5 q :=
  worker_partition 5 (by norm_num)

/-- Claim C9 (confirmed): the citation list `processQuery` returns contains
exactly the distinct (title, page) pairs among the retrieved passages used
(the results within the similarity threshold): membership is equivalent to
occurring among those passages, and no pair appears twice — the string key
`` `${title}-${page}` `` is injective because decimal digits contain no
dash. -/
theorem citation_dedup_exact (env : RagEnv) (query : Text) (topicId : Option String) :
    (∀ c : Citation,
        c ∈ (processQuery env query topicId).1.citations ↔
          c ∈ ((searchSimilarDocuments env query topicId 5).filter
              (fun (r : SearchResult) => r.distance ≤ SIMILARITY_THRESHOLD)).map pairOf)
    ∧ (processQuery env query topicId).1.citations.Nodup := by
  by_cases hd : hasDocuments env = true
  · unfold processQuery
    rw [if_neg (by simpa using hd)]
    dsimp only
    by_cases hlen : ((searchSimilarDocuments env query topicId 5).filter
        (fun (r : SearchResult) => r.distance ≤ SIMILARITY_THRESHOLD)).length = 0
    · rw [if_pos hlen]
      have hnil := List.length_eq_zero.mp hlen
      constructor
      · intro c
        rw [hnil]
        simp
      · simp
    · rw [if_neg hlen]
      obtain ⟨hinv, hnd, hiff⟩ := buildCitations_spec
        ((searchSimilarDocuments env query topicId 5).filter
          (fun (r : SearchResult) => r.distance ≤ SIMILARITY_THRESHOLD)) []
        (by intro kc hkc; simp at hkc) (by simp)
      constructor
      · intro c
        rw [hiff c]
        simp
      · have hkeys : (buildCitations
            ((searchSimilarDocuments env query topicId 5).filter
              (fun (r : SearchResult) => r.distance ≤ SIMILARITY_THRESHOLD)) []).map
              Prod.fst
            = ((buildCitations
                ((searchSimilarDocuments env query topicId 5).filter
                  (fun (r : SearchResult) => r.distance ≤ SIMILARITY_THRESHOLD))
                []).map Prod.snd).map
              (fun c => citationKey c.book_title c.page_number) := by
          rw [List.map_map]
          exact List.map_congr_left (fun kc hkc => hinv kc hkc)
        rw [hkeys] at hnd
        exact hnd.of_map
  · unfold processQuery
    rw [if_pos (by simpa using hd)]
    have hcorp : env.corpus = [] := by
      unfold hasDocuments at hd
      simp at hd
      exact hd
    have hsearch : searchSimilarDocuments env query topicId 5 = [] := by
      unfold searchSimilarDocuments
      cases topicId <;> simp [hcorp, sortByDistance]
    constructor
    · intro c
      rw [hsearch]
      simp
    · simp

/-- Counterexample to C10 as stated: after a successful run terminates (job
status `complete`, PDF file removed), the `pageCache` entry written during
extraction is still present — the module-level cache is never cleared, so
entries do survive the job's termination. -/
theorem page_cache_survives_cx :
    JobRun traceC10
    ∧ (runTrace oracleC10 "j1" initX traceC10).jobStatus = "complete"
    ∧ (runTrace oracleC10 "j1" initX traceC10).cache
        = [((pdfPathX, 1), "Alpha".data)] := by
  refine ⟨JobRun.success [Ev.extractPage pdfPathX 1, Ev.stageBatch [rowX],
    Ev.workerDone, Ev.workerDone, Ev.workerDone] (by decide) (by decide), ?_, ?_⟩
    <;> decide

/-- Claim C10 (amended): the page-extraction cache is append-only — no
program path removes an entry, so any cache entry present at any point of a
run is still present when the run (and in particular the job) terminates;
per-job scoping comes only from the per-job PDF path in the key, not from
any lifetime bound. -/
theorem page_cache_append_only (oracle : Nat → Text) (jobId : String)
    (init : SysState) (evs tr : List Ev) (k : String × Nat) (t : Text)
    (hpre : tr <+: evs)
    (hmem : (k, t) ∈ (runTrace oracle jobId init tr).cache) :
    (k, t) ∈ (runTrace oracle jobId init evs).cache := by
  obtain ⟨rest, hrest⟩ := hpre
  rw [← hrest, runTrace_append]
  exact runTrace_cache_mono oracle jobId rest _ k t hmem

/-- Witness for C10 (amended) on a concrete run. -/
theorem page_cache_append_only_witness :
    ((pdfPathX, 1), "Alpha".data) ∈ (runTrace oracleC10 "j1" initX traceC10).cache :=
  page_cache_append_only oracleC10 "j1" initX traceC10 [Ev.extractPage pdfPathX 1]
    (pdfPathX, 1) "Alpha".data
    ⟨[Ev.stageBatch [rowX], Ev.workerDone, Ev.workerDone, Ev.workerDone,
      Ev.commitTxn true], rfl⟩
    (by decide)

end AIPLC
